import Mathlib

set_option maxHeartbeats 1000000

/-!
Verification development for the character-network analysis pipeline
(`src/app/api/text/route.ts`, `src/app/page.tsx`, `src/app/utils.ts`).

JavaScript objects are modelled as insertion-ordered association lists
(`alGet` / `alSet` mirror property read and property assignment: assignment
of an existing key keeps its position, a new key is appended at the end,
exactly as JS object key ordering behaves).  Interaction counts are `Int`
(JS numbers; the code performs no validation, so non-positive values are
representable).  External effects — the Groq chat completion per chunk,
`JSON.parse`, and the Redis cache — are modelled as explicit oracle
parameters and explicit state.
-/

namespace CharacterNetwork

/-- Inner JS object `{ [character]: { interactions: number } }`:
an insertion-ordered list of (character, interactions) pairs. -/
abbrev CharacterRelations := List (String × Int)

/-- Outer JS object `{ [character]: CharacterRelations }`. -/
abbrev CharacterData := List (String × CharacterRelations)

/-- `interface AnalysisResult { interactions: CharacterData }` from route.ts. -/
structure AnalysisResult where
  interactions : CharacterData
deriving DecidableEq, Repr

/-- JS property read `obj[k]`: first (unique, for objects) matching key. -/
def alGet {κ α : Type} [DecidableEq κ] : List (κ × α) → κ → Option α
  | [], _ => none
  | (k', v) :: t, k => if k' = k then some v else alGet t k

/-- JS property assignment `obj[k] = v`: update in place if the key exists,
append at the end otherwise (JS object key-insertion order). -/
def alSet {κ α : Type} [DecidableEq κ] : List (κ × α) → κ → α → List (κ × α)
  | [], k, v => [(k, v)]
  | (k', v') :: t, k, v =>
      if k' = k then (k', v) :: t else (k', v') :: alSet t k v

/-- Does any entry of the association list carry key `k`? -/
def hasKey {κ α : Type} [DecidableEq κ] (l : List (κ × α)) (k : κ) : Bool :=
  l.any (fun q => decide (q.1 = k))

/-- Nested lookup `obj[a][b]` (`undefined` if either level is missing). -/
def alGet2 (m : CharacterData) (a b : String) : Option Int :=
  (alGet m a).bind (fun rel => alGet rel b)

/-- route.ts lines 135-140: fold one segment's relations for a single outer
character into the accumulator object:
`if (!merged[c1][c2]) merged[c1][c2] = {interactions: 0};
 merged[c1][c2].interactions += data.interactions`. -/
def mergeRelations (cur : CharacterRelations) (rel : CharacterRelations) :
    CharacterRelations :=
  rel.foldl (fun acc q => alSet acc q.1 (((alGet acc q.1).getD 0) + q.2)) cur

/-- route.ts lines 131-141: fold one decoded segment result into the merged
object (`if (!merged[c1]) merged[c1] = {}` then the inner loop). -/
def mergeOne (m : CharacterData) (p : CharacterData) : CharacterData :=
  p.foldl
    (fun acc r => alSet acc r.1 (mergeRelations ((alGet acc r.1).getD []) r.2))
    m

/-- route.ts lines 124-142: `const merged = {}` then `results.forEach(...)`. -/
def mergeAll (ps : List CharacterData) : CharacterData :=
  ps.foldl mergeOne []

/-- `const CHUNK_SIZE = 10000` (route.ts line 5). -/
def CHUNK_SIZE : Nat := 10000

/-- route.ts line 55: `bookText.slice(0, 100000)` — the truncation bound. -/
def MAX_INPUT : Nat := 100000

/-- Fuel-indexed chunking loop, mirroring route.ts lines 58-61:
`for (let i = 0; i < text.length; i += CHUNK_SIZE)
   chunks.push(text.slice(i, i + CHUNK_SIZE))`.
The fuel only serves structural recursion; any fuel at least the length of
the list produces the loop's chunks (see `chunksOfF_irrel`). -/
def chunksOfF : Nat → List Char → List (List Char)
  | _, [] => []
  | 0, _ :: _ => []
  | fuel + 1, c :: t =>
      (c :: t).take CHUNK_SIZE :: chunksOfF fuel ((c :: t).drop CHUNK_SIZE)

/-- The Segmenter: consecutive slices of at most `CHUNK_SIZE` characters. -/
def chunksOf (l : List Char) : List (List Char) := chunksOfF l.length l

/-- Total interaction count that a raw relations object reports for `b`
(the sum over all entries carrying key `b`; a parsed JSON object has each
key once, but the characterization never needs that assumption). -/
def relContrib (rel : CharacterRelations) (b : String) : Int :=
  ((rel.filter (fun q => decide (q.1 = b))).map Prod.snd).sum

/-- Total count a raw decoded segment reports for the ordered pair `a → b`. -/
def dataContrib (p : CharacterData) (a b : String) : Int :=
  ((p.filter (fun r => decide (r.1 = a))).map (fun r => relContrib r.2 b)).sum

/-- Does the raw decoded segment mention the ordered pair `a → b`? -/
def hasPair (p : CharacterData) (a b : String) : Bool :=
  p.any (fun r => decide (r.1 = a) && hasKey r.2 b)

/-- Well-formedness of a decoded JSON object: keys are unique at both
nesting levels (`JSON.parse` cannot produce duplicate keys). -/
def wfData (p : CharacterData) : Prop :=
  (p.map Prod.fst).Nodup ∧ ∀ r ∈ p, (r.2.map Prod.fst).Nodup

instance (p : CharacterData) : Decidable (wfData p) := by
  unfold wfData
  infer_instance

/-- UTF-8 encoding of one code point (`Buffer.from(text)` uses UTF-8). -/
def utf8Bytes (c : Char) : List Nat :=
  let n := c.toNat
  if n < 128 then [n]
  else if n < 2048 then [192 + n / 64, 128 + n % 64]
  else if n < 65536 then [224 + n / 4096, 128 + n / 64 % 64, 128 + n % 64]
  else [240 + n / 262144, 128 + n / 4096 % 64, 128 + n / 64 % 64,
    128 + n % 64]

/-- UTF-8 bytes of a whole string. -/
def strBytes (s : List Char) : List Nat := (s.map utf8Bytes).flatten

/-- The 64 base64 digits in order. -/
def base64Table : List Char :=
  "ABCDEFGHIJKLMNOPQRSTUVWXYZabcdefghijklmnopqrstuvwxyz0123456789+/".toList

/-- Digit `n` of the base64 alphabet. -/
def b64Char (n : Nat) : Char := base64Table.getD n 'A'

/-- Standard base64 (with padding) of a byte sequence, as produced by
`Buffer.toString('base64')`. -/
def base64Encode : List Nat → List Char
  | [] => []
  | [b1] => [b64Char (b1 / 4), b64Char (b1 % 4 * 16), '=', '=']
  | [b1, b2] =>
      [b64Char (b1 / 4), b64Char (b1 % 4 * 16 + b2 / 16),
        b64Char (b2 % 16 * 4), '=']
  | b1 :: b2 :: b3 :: rest =>
      b64Char (b1 / 4) :: b64Char (b1 % 4 * 16 + b2 / 16) ::
        b64Char (b2 % 16 * 4 + b3 / 64) :: b64Char (b3 % 64) ::
          base64Encode rest

/-- route.ts line 42:
`const cacheKey = 'analysis:' + Buffer.from(bookText).toString('base64').slice(0, 50)`. -/
def cacheKey (bookText : List Char) : List Char :=
  "analysis:".toList ++ (base64Encode (strBytes bookText)).take 50

/-- First pass of route.ts line 129: `content.replace(/三backtick-json/g, "")`
— remove every occurrence of a backtick-backtick-backtick-json marker,
scanning left to right. -/
def removeTicksJson : List Char → List Char
  | '`' :: '`' :: '`' :: 'j' :: 's' :: 'o' :: 'n' :: rest =>
      removeTicksJson rest
  | c :: rest => c :: removeTicksJson rest
  | [] => []

/-- Second pass of route.ts line 129: remove every triple-backtick marker. -/
def removeTicks : List Char → List Char
  | '`' :: '`' :: '`' :: rest => removeTicks rest
  | c :: rest => c :: removeTicks rest
  | [] => []

/-- route.ts line 129: both replace passes, in source order. -/
def stripFences (l : List Char) : List Char := removeTicks (removeTicksJson l)

/-- Outcome of one chat-completion call for one chunk: the promise either
rejects (transport failure — `Promise.all` then rejects), or resolves with
`choices[0]?.message?.content` (absent or empty string are both falsy and
skipped by the guard on route.ts line 126). -/
inductive ChunkOutcome where
  | rejected : ChunkOutcome
  | resolved : Option (List Char) → ChunkOutcome
deriving DecidableEq, Repr

/-- The three ways the POST handler of route.ts can answer. -/
inductive PostResult where
  | badRequest : PostResult
  | serverError : PostResult
  | ok : AnalysisResult → PostResult
deriving DecidableEq, Repr

/-- The Redis cache, as explicit state: key to stored analysis result.
Entry presence models validity within the 24-hour TTL window. -/
abbrev Cache := List (List Char × AnalysisResult)

/-- Observable outcome of one POST call: the HTTP-level answer, the cache
state after the call, how many chat-completion calls were launched, and
whether the segmentation/extraction/aggregation pipeline ran at all. -/
structure AnalyzeOutcome where
  response : PostResult
  cache : Cache
  extractionCalls : Nat
  ranPipeline : Bool
deriving DecidableEq, Repr

/-- The truncation of route.ts line 55. -/
def truncateInput (text : List Char) : List Char := text.take MAX_INPUT

/-- The chunks built on route.ts lines 58-61. -/
def segments (text : List Char) : List (List Char) :=
  chunksOf (truncateInput text)

/-- The content carried by a resolved call (`none` for a rejection; the
rejection case is filtered out before contents are read). -/
def outcomeContent : ChunkOutcome → Option (List Char)
  | ChunkOutcome.rejected => none
  | ChunkOutcome.resolved c => c

/-- Per-chunk model-call results, in chunk order (`chunks.map(...)` then
`Promise.all` on route.ts lines 92-119 preserves order). -/
def chunkOutcomes (oracle : List Char → ChunkOutcome) (text : List Char) :
    List ChunkOutcome :=
  (segments text).map oracle

/-- The message contents of the resolved calls, in chunk order. -/
def chunkContents (oracle : List Char → ChunkOutcome) (text : List Char) :
    List (Option (List Char)) :=
  (chunkOutcomes oracle text).map outcomeContent

/-- route.ts lines 124-142 with JS exception semantics: fold the contents
left to right; a falsy content (absent or empty) is skipped
(`if (!...content) return`), otherwise the content is fence-stripped and
parsed — a `JSON.parse` throw (`parse` returns `none`) propagates out of the
`forEach`, modelled by the absorbing `none`. -/
def mergeResults (parse : List Char → Option CharacterData)
    (contents : List (Option (List Char))) : Option CharacterData :=
  contents.foldl
    (fun acc c =>
      match acc with
      | none => none
      | some m =>
        match c with
        | none => some m
        | some s =>
          if s = [] then some m
          else
            match parse (stripFences s) with
            | none => none
            | some p => some (mergeOne m p))
    (some [])

/-- The POST handler of route.ts (the spec's `AnalyzeText`), as a function
of explicit oracles and state: `oracle` is the chat-completion call per
chunk, `parse` is `JSON.parse` (`none` models a throw), `cacheGetFails` /
`cacheSetFails` model the corresponding Redis call throwing (any throw
reaches the single try/catch of lines 31/154, which answers 500).
Control flow: empty-body check (line 34), cache read (lines 42-48),
truncation (line 55), chunking (lines 58-61), `Promise.all` (line 119),
merge (lines 124-142), cache write (line 151), success response (line 153). -/
def analyzeText (cacheGetFails cacheSetFails : Bool)
    (oracle : List Char → ChunkOutcome)
    (parse : List Char → Option CharacterData)
    (cache : Cache) (bookText : List Char) : AnalyzeOutcome :=
  if bookText = [] then ⟨PostResult.badRequest, cache, 0, false⟩
  else if cacheGetFails then ⟨PostResult.serverError, cache, 0, false⟩
  else
    match alGet cache (cacheKey bookText) with
    | some r => ⟨PostResult.ok r, cache, 0, false⟩
    | none =>
      if (chunkOutcomes oracle bookText).any
          (fun o => decide (o = ChunkOutcome.rejected))
      then ⟨PostResult.serverError, cache, (segments bookText).length, true⟩
      else
        match mergeResults parse (chunkContents oracle bookText) with
        | none =>
            ⟨PostResult.serverError, cache, (segments bookText).length, true⟩
        | some merged =>
          if cacheSetFails then
            ⟨PostResult.serverError, cache, (segments bookText).length, true⟩
          else
            ⟨PostResult.ok ⟨merged⟩,
              alSet cache (cacheKey bookText) ⟨merged⟩,
              (segments bookText).length, true⟩

/-- What one resolved content contributes to the merge: nothing when falsy,
otherwise the fence-stripped parse (when it succeeds). -/
def usableParse (parse : List Char → Option CharacterData)
    (c : Option (List Char)) : Option CharacterData :=
  match c with
  | none => none
  | some s => if s = [] then none else parse (stripFences s)

/-- A syntactically valid JSON object text reporting Alice-Bob once
(written with escaped braces). -/
def goodJson : List Char :=
  "\x7b\"Alice\":\x7b\"Bob\":\x7b\"interactions\":1\x7d\x7d\x7d".toList

/-- A content that is not valid JSON: `JSON.parse` throws on it. -/
def badContent : List Char := "oops".toList

/-- A two-chunk input: one full-sized chunk of `a`s followed by `b`. -/
def twoChunkText : List Char := List.replicate CHUNK_SIZE 'a' ++ ['b']

/-- Oracle for the two-chunk scenario: the one-character chunk gets the
valid JSON, the full-sized chunk gets the invalid content. -/
def twoChunkOracle (c : List Char) : ChunkOutcome :=
  if c.length = 1 then ChunkOutcome.resolved (some goodJson)
  else ChunkOutcome.resolved (some badContent)

/-- `JSON.parse` for the two-chunk scenario: decodes `goodJson`, throws on
anything else (in particular on `badContent`). -/
def twoChunkParse (s : List Char) : Option CharacterData :=
  if s = goodJson then some [("Alice", [("Bob", (1 : Int))])] else none

/-- Positivity of every count of an interaction object. -/
def posGraph (g : CharacterData) : Prop :=
  ∀ r ∈ g, ∀ q ∈ r.2, 0 < q.2

instance (g : CharacterData) : Decidable (posGraph g) := by
  unfold posGraph
  infer_instance

/-- A syntactically valid JSON object text reporting the schema-violating
count Bob→Alice:0 (written with escaped braces). -/
def zeroJson : List Char :=
  "\x7b\"Bob\":\x7b\"Alice\":\x7b\"interactions\":0\x7d\x7d\x7d".toList

/-- `JSON.parse` for the zero-count scenario: decodes `zeroJson` (plain
`JSON.parse` succeeds on it — the minimum-1 constraint lives only in the
prompt), throws on anything else. -/
def zeroParse (s : List Char) : Option CharacterData :=
  if s = zeroJson then some [("Bob", [("Alice", (0 : Int))])] else none

/-- A node of the rendered network graph (`{ id, name, value }`). -/
structure GraphNode where
  id : String
  name : String
  value : Int
deriving DecidableEq, Repr

/-- A link of the rendered network graph (`{ source, target, value }`). -/
structure GraphLink where
  source : String
  target : String
  value : Int
deriving DecidableEq, Repr

/-- The `{ nodes, links }` pair both transforms return. -/
structure GraphData where
  nodes : List GraphNode
  links : List GraphLink
deriving DecidableEq, Repr

/-- The per-character total computed in the first pass of both transforms
(`Object.values(interactions).forEach(count => total += count)`). -/
def sumRel (rel : CharacterRelations) : Int := (rel.map Prod.snd).sum

/-- The `nodeMap` both transforms build: character to total interactions,
in insertion order (`Map.set` keeps the position of an existing key). -/
def nodeTotals (data : CharacterData) : List (String × Int) :=
  data.foldl (fun acc r => alSet acc r.1 (sumRel r.2)) []

/-- The node list both transforms emit from `nodeMap`. -/
def toNodes (data : CharacterData) : List GraphNode :=
  (nodeTotals data).map (fun p => ⟨p.1, p.1, p.2⟩)

/-- page.tsx lines 33-41: a link for every `(source, target, value)` entry,
with no existence check on the endpoints. -/
def pageLinks (data : CharacterData) : List GraphLink :=
  (data.map (fun r => r.2.map (fun q => (⟨r.1, q.1, q.2⟩ : GraphLink)))).flatten

/-- utils.ts lines 84-95: the same iteration, but a link is pushed only
when `nodeMap.has(source) && nodeMap.has(target)`. -/
def utilsLinks (data : CharacterData) : List GraphLink :=
  (data.map (fun r => r.2.filterMap (fun q =>
    if hasKey (nodeTotals data) r.1 && hasKey (nodeTotals data) q.1
    then some (⟨r.1, q.1, q.2⟩ : GraphLink) else none))).flatten

/-- The inline `transformCharacterData` of page.tsx lines 7-44. -/
def transformCharacterDataPage (data : CharacterData) : GraphData :=
  ⟨toNodes data, pageLinks data⟩

/-- The exported `transformCharacterData` of utils.ts lines 58-98. -/
def transformCharacterDataUtils (data : CharacterData) : GraphData :=
  ⟨toNodes data, utilsLinks data⟩

/-- `chunksOfF` on the empty list is `[]` whatever the fuel. -/
theorem chunksOfF_nil (f : Nat) : chunksOfF f [] = [] := by
  cases f <;> rfl

/-- Unfolding `chunksOfF` on a non-empty list with positive fuel. -/
theorem chunksOfF_cons (f : Nat) (c : Char) (t : List Char) :
    chunksOfF (f + 1) (c :: t) =
      (c :: t).take CHUNK_SIZE :: chunksOfF f ((c :: t).drop CHUNK_SIZE) := rfl

/-- The fuel is irrelevant as soon as it dominates the length. -/
theorem chunksOfF_irrel :
    ∀ (f₁ f₂ : Nat) (l : List Char), l.length ≤ f₁ → l.length ≤ f₂ →
      chunksOfF f₁ l = chunksOfF f₂ l := by
  intro f₁
  induction f₁ with
  | zero =>
    intro f₂ l h₁ _
    have hl : l = [] := List.eq_nil_of_length_eq_zero (Nat.le_zero.mp h₁)
    subst hl
    simp [chunksOfF_nil]
  | succ g ih =>
    intro f₂ l h₁ h₂
    cases l with
    | nil => simp [chunksOfF_nil]
    | cons c t =>
      cases f₂ with
      | zero => exact absurd h₂ (by simp)
      | succ h =>
        rw [chunksOfF_cons, chunksOfF_cons]
        congr 1
        have hlen : ((c :: t).drop CHUNK_SIZE).length ≤ g := by
          simp only [List.length_drop, List.length_cons, CHUNK_SIZE]
          simp only [List.length_cons] at h₁
          omega
        have hlen' : ((c :: t).drop CHUNK_SIZE).length ≤ h := by
          simp only [List.length_drop, List.length_cons, CHUNK_SIZE]
          simp only [List.length_cons] at h₂
          omega
        exact ih _ _ hlen hlen'

/-- Recursion equation for the Segmenter on a non-empty input. -/
theorem chunksOf_cons_eq (l : List Char) (h : l ≠ []) :
    chunksOf l = l.take CHUNK_SIZE :: chunksOf (l.drop CHUNK_SIZE) := by
  cases l with
  | nil => exact absurd rfl h
  | cons c t =>
    show chunksOfF (c :: t).length (c :: t) = _
    rw [List.length_cons, chunksOfF_cons]
    congr 1
    exact chunksOfF_irrel _ _ _
      (by simp only [List.length_drop, List.length_cons, CHUNK_SIZE]; omega)
      (Nat.le_refl _)

/-- In-order concatenation of the segments reproduces the input exactly. -/
theorem chunksOf_join_aux :
    ∀ (n : Nat) (l : List Char), l.length ≤ n → (chunksOf l).flatten = l := by
  intro n
  induction n with
  | zero =>
    intro l h
    have hl : l = [] := List.eq_nil_of_length_eq_zero (Nat.le_zero.mp h)
    subst hl
    rfl
  | succ m ih =>
    intro l h
    by_cases hl : l = []
    · subst hl; rfl
    · rw [chunksOf_cons_eq l hl, List.flatten_cons,
        ih (l.drop CHUNK_SIZE) ?_, List.take_append_drop]
      have hpos : 0 < l.length := List.length_pos.mpr hl
      simp only [List.length_drop, CHUNK_SIZE]
      omega

/-- Segmenter coverage: the segments concatenate back to the input. -/
theorem chunksOf_join (l : List Char) : (chunksOf l).flatten = l :=
  chunksOf_join_aux l.length l (Nat.le_refl _)

/-- Every produced segment has at most `CHUNK_SIZE` characters. -/
theorem chunksOf_length_le_aux :
    ∀ (n : Nat) (l : List Char), l.length ≤ n →
      ∀ c ∈ chunksOf l, c.length ≤ CHUNK_SIZE := by
  intro n
  induction n with
  | zero =>
    intro l h c hc
    have hl : l = [] := List.eq_nil_of_length_eq_zero (Nat.le_zero.mp h)
    subst hl
    simp [chunksOf, chunksOfF_nil] at hc
  | succ m ih =>
    intro l h c hc
    by_cases hl : l = []
    · subst hl; simp [chunksOf, chunksOfF_nil] at hc
    · rw [chunksOf_cons_eq l hl] at hc
      rcases List.mem_cons.mp hc with h1 | h2
      · subst h1; exact List.length_take_le _ _
      · refine ih (l.drop CHUNK_SIZE) ?_ c h2
        have hpos : 0 < l.length := List.length_pos.mpr hl
        simp only [List.length_drop, CHUNK_SIZE]
        omega

/-- Every produced segment has at most `CHUNK_SIZE` characters. -/
theorem chunksOf_length_le (l : List Char) :
    ∀ c ∈ chunksOf l, c.length ≤ CHUNK_SIZE :=
  chunksOf_length_le_aux l.length l (Nat.le_refl _)

/-- Chunking a list that starts with a full-sized block peels that block. -/
theorem chunksOf_append (l₁ l₂ : List Char) (h : l₁.length = CHUNK_SIZE) :
    chunksOf (l₁ ++ l₂) = l₁ :: chunksOf l₂ := by
  have hne : l₁ ++ l₂ ≠ [] := by
    intro habs
    have : (l₁ ++ l₂).length = 0 := by rw [habs]; rfl
    simp only [List.length_append, h] at this
    simp [CHUNK_SIZE] at this
  rw [chunksOf_cons_eq _ hne]
  congr 1
  · rw [← h, List.take_left]
  · rw [← h, List.drop_left]

/-- Reading back the key just assigned. -/
theorem alGet_alSet_self {κ α : Type} [DecidableEq κ]
    (l : List (κ × α)) (k : κ) (v : α) : alGet (alSet l k v) k = some v := by
  induction l with
  | nil => simp [alSet, alGet]
  | cons q t ih =>
    by_cases h : q.1 = k
    · cases q with
      | mk qk qv =>
        simp only at h
        simp [alSet, alGet, h]
    · cases q with
      | mk qk qv =>
        simp only at h
        simp [alSet, alGet, h, ih]

/-- Assignment leaves every other key unchanged. -/
theorem alGet_alSet_ne {κ α : Type} [DecidableEq κ]
    (l : List (κ × α)) (k k' : κ) (v : α) (h : k' ≠ k) :
    alGet (alSet l k v) k' = alGet l k' := by
  have h' : ¬(k = k') := fun hh => h hh.symm
  induction l with
  | nil => simp [alSet, alGet, h']
  | cons q t ih =>
    cases q with
    | mk qk qv =>
      by_cases hq : qk = k
      · subst hq
        simp [alSet, alGet, h']
      · simp only [alSet, if_neg hq]
        by_cases hq' : qk = k'
        · simp [alGet, hq']
        · simp [alGet, hq', ih]

/-- A successful lookup comes from an actual entry of the list. -/
theorem alGet_mem {κ α : Type} [DecidableEq κ]
    (l : List (κ × α)) (k : κ) (v : α) (h : alGet l k = some v) :
    (k, v) ∈ l := by
  induction l with
  | nil => simp [alGet] at h
  | cons q t ih =>
    cases q with
    | mk qk qv =>
      by_cases hq : qk = k
      · subst hq
        have h2 : qv = v := by simpa [alGet] using h
        subst h2
        exact List.mem_cons_self _ _
      · simp only [alGet, if_neg hq] at h
        exact List.mem_cons_of_mem _ (ih h)

/-- Entries after an assignment: either the assigned pair or an old entry. -/
theorem mem_alSet {κ α : Type} [DecidableEq κ]
    (l : List (κ × α)) (k : κ) (v : α) (q : κ × α) (h : q ∈ alSet l k v) :
    q = (k, v) ∨ q ∈ l := by
  induction l with
  | nil => simpa [alSet] using h
  | cons r t ih =>
    cases r with
    | mk rk rv =>
      by_cases hr : rk = k
      · subst hr
        simp only [alSet, if_pos rfl] at h
        rcases List.mem_cons.mp h with h1 | h2
        · left; simpa using h1
        · right; exact List.mem_cons_of_mem _ h2
      · simp only [alSet, if_neg hr] at h
        rcases List.mem_cons.mp h with h1 | h2
        · right; exact h1 ▸ List.mem_cons_self _ _
        · rcases ih h2 with h3 | h4
          · exact Or.inl h3
          · exact Or.inr (List.mem_cons_of_mem _ h4)

/-- A lookup succeeds exactly when the key occurs in the list. -/
theorem alGet_isSome_eq_hasKey {κ α : Type} [DecidableEq κ]
    (l : List (κ × α)) (k : κ) : (alGet l k).isSome = hasKey l k := by
  induction l with
  | nil => simp [alGet, hasKey]
  | cons q t ih =>
    cases q with
    | mk qk qv =>
      by_cases hq : qk = k
      · simp [alGet, hasKey, hq]
      · have : hasKey ((qk, qv) :: t) k = hasKey t k := by
          simp [hasKey, hq]
        rw [this, ← ih]
        simp [alGet, hq]

theorem relContrib_nil (b : String) : relContrib [] b = 0 := rfl

theorem relContrib_cons (q : String × Int) (t : CharacterRelations)
    (b : String) :
    relContrib (q :: t) b =
      (if q.1 = b then q.2 else 0) + relContrib t b := by
  by_cases h : q.1 = b <;> simp [relContrib, h]

theorem dataContrib_cons (r : String × CharacterRelations)
    (t : CharacterData) (a b : String) :
    dataContrib (r :: t) a b =
      (if r.1 = a then relContrib r.2 b else 0) + dataContrib t a b := by
  by_cases h : r.1 = a <;> simp [dataContrib, h]

theorem hasPair_cons (r : String × CharacterRelations) (t : CharacterData)
    (a b : String) :
    hasPair (r :: t) a b =
      ((decide (r.1 = a) && hasKey r.2 b) || hasPair t a b) := by
  simp [hasPair]

/-- Characterization of one inner merge step (route.ts lines 135-140): the
result holds key `b` iff either side mentions it, and its value adds the
incoming total for `b` to the current value (0 when absent). -/
theorem alGet_mergeRelations (rel : CharacterRelations) :
    ∀ (cur : CharacterRelations) (b : String),
      alGet (mergeRelations cur rel) b =
        if (hasKey rel b || (alGet cur b).isSome) = true
        then some (relContrib rel b + (alGet cur b).getD 0)
        else none := by
  induction rel with
  | nil =>
    intro cur b
    show alGet cur b = _
    cases hc : alGet cur b <;>
      simp [hasKey, relContrib, alGet_isSome_eq_hasKey, hc]
  | cons q t ih =>
    intro cur b
    have hstep : mergeRelations cur (q :: t) =
        mergeRelations (alSet cur q.1 (((alGet cur q.1).getD 0) + q.2)) t :=
      rfl
    rw [hstep, ih]
    by_cases hq : q.1 = b
    · subst hq
      rw [alGet_alSet_self]
      have hk : hasKey (q :: t) q.1 = true := by simp [hasKey]
      rw [relContrib_cons]
      cases hc : alGet cur q.1 <;> simp [hk, hasKey, hc] <;> omega
    · rw [alGet_alSet_ne cur q.1 b _ (fun hh => hq hh.symm)]
      have hk : hasKey (q :: t) b = hasKey t b := by simp [hasKey, hq]
      rw [relContrib_cons, if_neg hq, hk]
      simp

/-- Unfolding `hasKey` over a cons cell. -/
theorem hasKey_cons {κ α : Type} [DecidableEq κ]
    (q : κ × α) (t : List (κ × α)) (k : κ) :
    hasKey (q :: t) k = (decide (q.1 = k) || hasKey t k) := by
  simp [hasKey]

/-- Keys present after an assignment: the assigned key plus the old keys. -/
theorem hasKey_alSet {κ α : Type} [DecidableEq κ]
    (l : List (κ × α)) (k k' : κ) (v : α) :
    hasKey (alSet l k v) k' = (decide (k = k') || hasKey l k') := by
  by_cases h : k = k'
  · subst h
    rw [← alGet_isSome_eq_hasKey, alGet_alSet_self]
    simp
  · rw [← alGet_isSome_eq_hasKey, alGet_alSet_ne _ _ _ _ (fun hh => h hh.symm),
      alGet_isSome_eq_hasKey]
    simp [h]

/-- A relations object with no entry for `b` contributes nothing to `b`. -/
theorem relContrib_eq_zero_of_not_hasKey (rel : CharacterRelations)
    (b : String) (h : hasKey rel b = false) : relContrib rel b = 0 := by
  have hfil : rel.filter (fun q => decide (q.1 = b)) = [] := by
    rw [List.filter_eq_nil_iff]
    intro q hq
    simp only [hasKey, List.any_eq_false] at h
    simpa using h q hq
  simp [relContrib, hfil]

/-- Outer keys after one full segment merge: the merged object mentions `a`
iff the incoming segment or the accumulator does. -/
theorem alGet_mergeOne_isSome (p : CharacterData) :
    ∀ (m : CharacterData) (a : String),
      (alGet (mergeOne m p) a).isSome = (hasKey p a || hasKey m a) := by
  induction p with
  | nil =>
    intro m a
    show (alGet m a).isSome = _
    simp [hasKey, alGet_isSome_eq_hasKey]
  | cons r t ih =>
    intro m a
    have hstep : mergeOne m (r :: t) =
        mergeOne (alSet m r.1 (mergeRelations ((alGet m r.1).getD []) r.2)) t :=
      rfl
    rw [hstep, ih, hasKey_alSet, hasKey_cons]
    cases h1 : decide (r.1 = a) <;> cases h2 : hasKey t a <;>
      cases h3 : hasKey m a <;> simp [h1, h2, h3]

/-- The accumulator's nested lookup matches the lookup in the getD-defaulted
relations object the code reads before the inner loop. -/
theorem alGet2_eq_getD (m : CharacterData) (a b : String) :
    alGet ((alGet m a).getD []) b = alGet2 m a b := by
  cases h : alGet m a <;> simp [alGet2, h, alGet]

/-- Characterization of one full segment merge (route.ts lines 131-141):
the merged pair `a → b` exists iff the segment mentions it or the
accumulator already had it, and its count adds the segment's total
contribution for the pair to the accumulator's previous count. -/
theorem alGet2_mergeOne (p : CharacterData) :
    ∀ (m : CharacterData) (a b : String),
      alGet2 (mergeOne m p) a b =
        if (hasPair p a b || (alGet2 m a b).isSome) = true
        then some (dataContrib p a b + (alGet2 m a b).getD 0)
        else none := by
  induction p with
  | nil =>
    intro m a b
    show alGet2 m a b = _
    cases hc : alGet2 m a b <;> simp [hasPair, dataContrib, hc]
  | cons r t ih =>
    intro m a b
    have hstep : mergeOne m (r :: t) =
        mergeOne (alSet m r.1 (mergeRelations ((alGet m r.1).getD []) r.2)) t :=
      rfl
    rw [hstep, ih]
    by_cases hr : r.1 = a
    · subst hr
      have hm : alGet2 (alSet m r.1
            (mergeRelations ((alGet m r.1).getD []) r.2)) r.1 b =
          alGet (mergeRelations ((alGet m r.1).getD []) r.2) b := by
        simp [alGet2, alGet_alSet_self]
      rw [hm, alGet_mergeRelations, alGet2_eq_getD,
        hasPair_cons, dataContrib_cons, if_pos rfl]
      cases h1 : hasKey r.2 b <;> cases h3 : hasPair t r.1 b <;>
        cases h2 : alGet2 m r.1 b <;>
          simp [h1, h2, h3, relContrib_eq_zero_of_not_hasKey] <;> omega
    · have hne : alGet2 (alSet m r.1
            (mergeRelations ((alGet m r.1).getD []) r.2)) a b =
          alGet2 m a b := by
        simp [alGet2, alGet_alSet_ne m r.1 a _ (fun hh => hr hh.symm)]
      rw [hne, hasPair_cons, dataContrib_cons, if_neg hr]
      simp [hr]

/-- A decoded segment that does not mention the pair contributes nothing. -/
theorem dataContrib_eq_zero_of_not_hasPair (p : CharacterData) (a b : String)
    (h : hasPair p a b = false) : dataContrib p a b = 0 := by
  induction p with
  | nil => rfl
  | cons r t ih =>
    rw [hasPair_cons] at h
    simp only [Bool.or_eq_false_iff, Bool.and_eq_false_iff] at h
    rw [dataContrib_cons, ih h.2]
    rcases h.1 with h1 | h1
    · have : ¬(r.1 = a) := by simpa using h1
      simp [this]
    · by_cases hr : r.1 = a
      · simp [hr, relContrib_eq_zero_of_not_hasKey r.2 b h1]
      · simp [hr]

/-- Characterization of the full Aggregator fold, generalized over the
accumulator: the folded pair `a → b` exists iff some decoded segment
mentions it or the accumulator already had it, and its count is the sum of
all segments' contributions plus the accumulator's previous count. -/
theorem alGet2_foldl_mergeOne (ps : List CharacterData) :
    ∀ (m : CharacterData) (a b : String),
      alGet2 (ps.foldl mergeOne m) a b =
        if (ps.any (fun p => hasPair p a b) || (alGet2 m a b).isSome) = true
        then some ((ps.map (fun p => dataContrib p a b)).sum +
          (alGet2 m a b).getD 0)
        else none := by
  induction ps with
  | nil =>
    intro m a b
    cases hc : alGet2 m a b <;> simp [hc]
  | cons p t ih =>
    intro m a b
    rw [List.foldl_cons, ih, alGet2_mergeOne]
    cases h1 : hasPair p a b <;> cases h3 : t.any (fun q => hasPair q a b) <;>
      cases h2 : alGet2 m a b <;>
        simp [h1, h2, h3, dataContrib_eq_zero_of_not_hasPair] <;> omega

/-- Outer-key characterization of the full Aggregator fold. -/
theorem hasKey_foldl_mergeOne (ps : List CharacterData) :
    ∀ (m : CharacterData) (a : String),
      (alGet (ps.foldl mergeOne m) a).isSome =
        (ps.any (fun p => hasKey p a) || hasKey m a) := by
  induction ps with
  | nil =>
    intro m a
    simp [alGet_isSome_eq_hasKey]
  | cons p t ih =>
    intro m a
    rw [List.foldl_cons, ih]
    have hstep : (alGet (mergeOne m p) a).isSome = (hasKey p a || hasKey m a) :=
      alGet_mergeOne_isSome p m a
    rw [← alGet_isSome_eq_hasKey, hstep]
    cases h1 : hasKey p a <;> cases h2 : t.any (fun q => hasKey q a) <;>
      cases h3 : hasKey m a <;> simp [h1, h2, h3]

/-- Pair-level characterization of `mergeAll` (route.ts lines 124-142). -/
theorem alGet2_mergeAll (ps : List CharacterData) (a b : String) :
    alGet2 (mergeAll ps) a b =
      if (ps.any (fun p => hasPair p a b)) = true
      then some ((ps.map (fun p => dataContrib p a b)).sum)
      else none := by
  have h := alGet2_foldl_mergeOne ps [] a b
  simpa [mergeAll, alGet2, alGet] using h

/-- Outer-key characterization of `mergeAll`. -/
theorem hasKey_mergeAll (ps : List CharacterData) (a : String) :
    (alGet (mergeAll ps) a).isSome = ps.any (fun p => hasKey p a) := by
  have h := hasKey_foldl_mergeOne ps [] a
  simpa [mergeAll, hasKey] using h

/-- `List.any` is invariant under permutation of the list. -/
theorem perm_any_eq {α : Type} (f : α → Bool) {l l' : List α}
    (h : l.Perm l') : l.any f = l'.any f := by
  cases hl : l.any f
  · cases hl' : l'.any f
    · rfl
    · exfalso
      rw [List.any_eq_true] at hl'
      rw [List.any_eq_false] at hl
      rcases hl' with ⟨x, hx, hfx⟩
      exact hl x (h.mem_iff.mpr hx) hfx
  · cases hl' : l'.any f
    · exfalso
      rw [List.any_eq_true] at hl
      rw [List.any_eq_false] at hl'
      rcases hl with ⟨x, hx, hfx⟩
      exact hl' x (h.mem_iff.mp hx) hfx
    · rfl

/-- With unique keys, filtering on a key that looks up to `v` isolates
exactly that one entry. -/
theorem filter_eq_of_alGet_nodup {κ α : Type} [DecidableEq κ] :
    ∀ (l : List (κ × α)), (l.map Prod.fst).Nodup →
      ∀ (k : κ) (v : α), alGet l k = some v →
        l.filter (fun q => decide (q.1 = k)) = [(k, v)] := by
  intro l
  induction l with
  | nil => intro _ k v h; simp [alGet] at h
  | cons q t ih =>
    intro hnd k v h
    cases q with
    | mk qk qv =>
      simp only [List.map_cons, List.nodup_cons] at hnd
      by_cases hq : qk = k
      · subst hq
        have hv : qv = v := by simpa [alGet] using h
        subst hv
        have hfil : t.filter (fun q => decide (q.1 = qk)) = [] := by
          rw [List.filter_eq_nil_iff]
          intro r hr
          simp only [decide_eq_true_eq]
          intro hrk
          exact hnd.1 (hrk ▸ List.mem_map_of_mem Prod.fst hr)
        simp [List.filter_cons, hfil]
      · have h' : alGet t k = some v := by simpa [alGet, hq] using h
        have := ih hnd.2 k v h'
        simp [List.filter_cons, hq, this]

/-- With unique keys a successful nested lookup pins down both the pair flag
and the contribution of a raw decoded segment. -/
theorem lookup2_of_wf (p : CharacterData) (hwf : wfData p) (a b : String)
    (k : Int) (h : alGet2 p a b = some k) :
    hasPair p a b = true ∧ dataContrib p a b = k := by
  rcases hrel : alGet p a with _ | rel
  · simp [alGet2, hrel] at h
  · have hb : alGet rel b = some k := by simpa [alGet2, hrel] using h
    have hmem : (a, rel) ∈ p := alGet_mem p a rel hrel
    have hndrel : (rel.map Prod.fst).Nodup := hwf.2 (a, rel) hmem
    constructor
    · rw [hasPair, List.any_eq_true]
      refine ⟨(a, rel), hmem, ?_⟩
      simp only [decide_True, Bool.true_and]
      rw [← alGet_isSome_eq_hasKey, hb]
      rfl
    · have hfil := filter_eq_of_alGet_nodup p hwf.1 a rel hrel
      have hfil2 := filter_eq_of_alGet_nodup rel hndrel b k hb
      simp [dataContrib, hfil, relContrib, hfil2]

/-- C7 — Merge commutativity: for any permutation of a fixed sequence of
decoded segment results, the Aggregator fold of route.ts lines 124-142
produces an InteractionGraph with exactly the same character keys and the
same count for every ordered pair. -/
theorem merge_perm_invariant (ps ps' : List CharacterData)
    (h : ps.Perm ps') :
    (∀ a, (alGet (mergeAll ps) a).isSome = (alGet (mergeAll ps') a).isSome) ∧
    (∀ a b, alGet2 (mergeAll ps) a b = alGet2 (mergeAll ps') a b) := by
  constructor
  · intro a
    rw [hasKey_mergeAll, hasKey_mergeAll]
    exact perm_any_eq _ h
  · intro a b
    rw [alGet2_mergeAll, alGet2_mergeAll,
      perm_any_eq (fun p => hasPair p a b) h,
      List.Perm.sum_eq (h.map (fun p => dataContrib p a b))]

/-- Witness for C7 at a concrete two-element permutation. -/
theorem merge_perm_invariant_witness :
    alGet2 (mergeAll [[("Alice", [("Bob", (3 : Int))])],
        [("Bob", [("Carol", (5 : Int))])]]) "Alice" "Bob" =
      alGet2 (mergeAll [[("Bob", [("Carol", (5 : Int))])],
        [("Alice", [("Bob", (3 : Int))])]]) "Alice" "Bob" :=
  (merge_perm_invariant _ _
    (List.Perm.swap [("Bob", [("Carol", (5 : Int))])]
      [("Alice", [("Bob", (3 : Int))])] [])).2 "Alice" "Bob"

/-- C8 — Merge additivity: when two decoded segments (with the unique keys
`JSON.parse` guarantees) both report the ordered pair `a → b`, with counts
`k1` and `k2`, the merged graph reports `a → b` with count `k1 + k2`; and
the spec's concrete scenario merges exactly as stated. -/
theorem merge_additive :
    (∀ (p1 p2 : CharacterData) (a b : String) (k1 k2 : Int),
      wfData p1 → wfData p2 →
      alGet2 p1 a b = some k1 → alGet2 p2 a b = some k2 →
      alGet2 (mergeAll [p1, p2]) a b = some (k1 + k2)) ∧
    mergeAll [[("Alice", [("Bob", (3 : Int))])],
        [("Alice", [("Bob", (1 : Int))]), ("Bob", [("Carol", (5 : Int))])]] =
      [("Alice", [("Bob", (4 : Int))]), ("Bob", [("Carol", (5 : Int))])] := by
  constructor
  · intro p1 p2 a b k1 k2 hw1 hw2 h1 h2
    obtain ⟨hp1, hc1⟩ := lookup2_of_wf p1 hw1 a b k1 h1
    obtain ⟨hp2, hc2⟩ := lookup2_of_wf p2 hw2 a b k2 h2
    rw [alGet2_mergeAll]
    simp [hp1, hp2, hc1, hc2]
  · decide

/-- Witness for C8's general additivity at concrete segments. -/
theorem merge_additive_witness :
    alGet2 (mergeAll [[("A", [("B", (2 : Int))])],
      [("A", [("B", (5 : Int))])]]) "A" "B" = some 7 :=
  merge_additive.1 [("A", [("B", (2 : Int))])] [("A", [("B", (5 : Int))])]
    "A" "B" 2 5 (by decide) (by decide) (by decide) (by decide)

/-- C9 — Segmenter coverage: the segments are consecutive slices of at most
`CHUNK_SIZE` (10,000) characters whose in-order concatenation is exactly the
input (no gaps, no overlaps, length preserved), and an empty input yields no
segments. -/
theorem segmenter_coverage (l : List Char) :
    (chunksOf l).flatten = l ∧
    (∀ c ∈ chunksOf l, c.length ≤ CHUNK_SIZE) ∧
    chunksOf ([] : List Char) = [] :=
  ⟨chunksOf_join l, chunksOf_length_le l, rfl⟩

/-- Witness for C9 at a concrete input. -/
theorem segmenter_coverage_witness :
    (chunksOf ['a', 'b']).flatten = ['a', 'b'] ∧
    ['a', 'b'].length ≤ CHUNK_SIZE :=
  ⟨(segmenter_coverage ['a', 'b']).1, by decide⟩

/-- Reduction of the handler on a non-empty body when the cache read throws:
the single try/catch answers 500 before any pipeline work. -/
theorem analyzeText_getFail (sf : Bool) (oracle : List Char → ChunkOutcome)
    (parse : List Char → Option CharacterData) (cache : Cache)
    (text : List Char) (hne : text ≠ []) :
    analyzeText true sf oracle parse cache text =
      ⟨PostResult.serverError, cache, 0, false⟩ := by
  unfold analyzeText
  rw [if_neg hne]
  rfl

/-- Reduction of the handler on a cache hit. -/
theorem analyzeText_hit (sf : Bool) (oracle : List Char → ChunkOutcome)
    (parse : List Char → Option CharacterData) (cache : Cache)
    (text : List Char) (r : AnalysisResult) (hne : text ≠ [])
    (hhit : alGet cache (cacheKey text) = some r) :
    analyzeText false sf oracle parse cache text =
      ⟨PostResult.ok r, cache, 0, false⟩ := by
  unfold analyzeText
  rw [if_neg hne]
  simp only [Bool.false_eq_true, if_false, hhit]

/-- Reduction of the handler on a cache miss with no rejected call: the
answer is decided by the merge fold and the cache write. -/
theorem analyzeText_miss (sf : Bool) (oracle : List Char → ChunkOutcome)
    (parse : List Char → Option CharacterData) (cache : Cache)
    (text : List Char) (hne : text ≠ [])
    (hmiss : alGet cache (cacheKey text) = none)
    (hnorej : (chunkOutcomes oracle text).any
      (fun o => decide (o = ChunkOutcome.rejected)) = false) :
    analyzeText false sf oracle parse cache text =
      match mergeResults parse (chunkContents oracle text) with
      | none =>
          ⟨PostResult.serverError, cache, (segments text).length, true⟩
      | some merged =>
          if sf then
            ⟨PostResult.serverError, cache, (segments text).length, true⟩
          else
            ⟨PostResult.ok ⟨merged⟩, alSet cache (cacheKey text) ⟨merged⟩,
              (segments text).length, true⟩ := by
  unfold analyzeText
  rw [if_neg hne]
  simp only [Bool.false_eq_true, if_false, hmiss, hnorej]

/-- Reduction of the handler on a cache miss when some call rejected:
`Promise.all` rejects and the try/catch answers 500. -/
theorem analyzeText_rejected (sf : Bool) (oracle : List Char → ChunkOutcome)
    (parse : List Char → Option CharacterData) (cache : Cache)
    (text : List Char) (hne : text ≠ [])
    (hmiss : alGet cache (cacheKey text) = none)
    (hrej : (chunkOutcomes oracle text).any
      (fun o => decide (o = ChunkOutcome.rejected)) = true) :
    analyzeText false sf oracle parse cache text =
      ⟨PostResult.serverError, cache, (segments text).length, true⟩ := by
  unfold analyzeText
  rw [if_neg hne]
  simp only [Bool.false_eq_true, if_false, hmiss, hrej, if_true]

/-- If every content is falsy (absent or empty) the merge fold keeps its
accumulator unchanged. -/
theorem mergeResults_aux_unusable
    (parse : List Char → Option CharacterData) :
    ∀ (contents : List (Option (List Char))) (m : CharacterData),
      (∀ c ∈ contents, c = none ∨ c = some ([] : List Char)) →
      contents.foldl
        (fun acc c =>
          match acc with
          | none => none
          | some m =>
            match c with
            | none => some m
            | some s =>
              if s = [] then some m
              else
                match parse (stripFences s) with
                | none => none
                | some p => some (mergeOne m p))
        (some m) = some m := by
  intro contents
  induction contents with
  | nil => intro m _; rfl
  | cons c t ih =>
    intro m hall
    have hc := hall c (List.mem_cons_self _ _)
    have ht : ∀ x ∈ t, x = none ∨ x = some ([] : List Char) :=
      fun x hx => hall x (List.mem_cons_of_mem _ hx)
    rcases hc with hc | hc <;> subst hc <;> simpa using ih m ht

/-- All-falsy contents merge to the empty object. -/
theorem mergeResults_all_unusable
    (parse : List Char → Option CharacterData)
    (contents : List (Option (List Char)))
    (hall : ∀ c ∈ contents, c = none ∨ c = some ([] : List Char)) :
    mergeResults parse contents = some [] :=
  mergeResults_aux_unusable parse contents [] hall

/-- C1 (counterexample) — the claim "if every segment's extraction fails,
`AnalyzeText` returns the pipeline-level error `PipelineExhaustedError`" is
false on the code: on the one-chunk input "a" whose single call resolves
with no content (every segment failed extraction), the handler answers a
successful empty InteractionGraph, not an error; no `PipelineExhaustedError`
exists anywhere in route.ts. -/
theorem all_failure_reported_counterexample :
    (analyzeText false false (fun _ => ChunkOutcome.resolved none)
      (fun _ => none) [] ['a']).response = PostResult.ok ⟨[]⟩ ∧
    (analyzeText false false (fun _ => ChunkOutcome.resolved none)
      (fun _ => none) [] ['a']).response ≠ PostResult.serverError ∧
    (analyzeText false false (fun _ => ChunkOutcome.resolved none)
      (fun _ => none) [] ['a']).response ≠ PostResult.badRequest := by
  refine ⟨by decide, by decide, by decide⟩

/-- C1 (amended) — when every segment's call resolves but yields no usable
content (absent or empty), `AnalyzeText` returns a successful *empty*
InteractionGraph; the only pipeline-level failure the code can produce is
the generic 500 from a rejected call, a parse throw, or a cache throw. -/
theorem all_failure_empty_success (oracle : List Char → ChunkOutcome)
    (parse : List Char → Option CharacterData) (cache : Cache)
    (text : List Char) (hne : text ≠ [])
    (hmiss : alGet cache (cacheKey text) = none)
    (hall : ∀ c ∈ segments text,
      oracle c = ChunkOutcome.resolved none ∨
      oracle c = ChunkOutcome.resolved (some ([] : List Char))) :
    (analyzeText false false oracle parse cache text).response =
      PostResult.ok ⟨[]⟩ := by
  have hnorej : (chunkOutcomes oracle text).any
      (fun o => decide (o = ChunkOutcome.rejected)) = false := by
    rw [List.any_eq_false]
    intro o ho
    rcases List.mem_map.mp ho with ⟨c, hc, hoc⟩
    rcases hall c hc with h | h <;> subst hoc <;> simp [h]
  have hcont : ∀ c ∈ chunkContents oracle text,
      c = none ∨ c = some ([] : List Char) := by
    intro c hc
    rcases List.mem_map.mp hc with ⟨o, ho, hco⟩
    rcases List.mem_map.mp ho with ⟨seg, hseg, hos⟩
    rcases hall seg hseg with h | h <;>
      subst hco <;> rw [← hos, h] <;> simp [outcomeContent]
  rw [analyzeText_miss false oracle parse cache text hne hmiss hnorej,
    mergeResults_all_unusable parse _ hcont]
  rfl

/-- Witness for C1's amended theorem at a concrete input. -/
theorem all_failure_empty_success_witness :
    (analyzeText false false (fun _ => ChunkOutcome.resolved (some []))
      (fun _ => none) [] ['b']).response = PostResult.ok ⟨[]⟩ :=
  all_failure_empty_success (fun _ => ChunkOutcome.resolved (some []))
    (fun _ => none) [] ['b'] (by decide) (by decide)
    (fun c _ => Or.inr rfl)

/-- A merge fold that has already thrown stays thrown. -/
theorem mergeResults_aux_none (parse : List Char → Option CharacterData) :
    ∀ (contents : List (Option (List Char))),
      contents.foldl
        (fun acc c =>
          match acc with
          | none => none
          | some m =>
            match c with
            | none => some m
            | some s =>
              if s = [] then some m
              else
                match parse (stripFences s) with
                | none => none
                | some p => some (mergeOne m p))
        none = none := by
  intro contents
  induction contents with
  | nil => rfl
  | cons c t ih => simpa using ih

/-- When every non-falsy content parses, the merge fold succeeds and equals
the plain Aggregator fold over the decoded segments, in order. -/
theorem mergeResults_aux_ok (parse : List Char → Option CharacterData) :
    ∀ (contents : List (Option (List Char))) (m : CharacterData),
      (∀ c ∈ contents, ∀ s, c = some s → s ≠ [] →
        (parse (stripFences s)).isSome) →
      contents.foldl
        (fun acc c =>
          match acc with
          | none => none
          | some m =>
            match c with
            | none => some m
            | some s =>
              if s = [] then some m
              else
                match parse (stripFences s) with
                | none => none
                | some p => some (mergeOne m p))
        (some m) =
      some ((contents.filterMap (usableParse parse)).foldl mergeOne m) := by
  intro contents
  induction contents with
  | nil => intro m _; rfl
  | cons c t ih =>
    intro m hall
    have ht : ∀ x ∈ t, ∀ s, x = some s → s ≠ [] →
        (parse (stripFences s)).isSome :=
      fun x hx => hall x (List.mem_cons_of_mem _ hx)
    cases c with
    | none => simpa [usableParse] using ih m ht
    | some s =>
      by_cases hs : s = []
      · subst hs
        simpa [usableParse] using ih m ht
      · have hps : (parse (stripFences s)).isSome :=
          hall (some s) (List.mem_cons_self _ _) s rfl hs
        rcases hp : parse (stripFences s) with _ | p
        · rw [hp] at hps; simp at hps
        · simp only [List.foldl_cons, List.filterMap_cons, usableParse,
            if_neg hs, hp]
          exact ih (mergeOne m p) ht

/-- A non-falsy content whose parse throws makes the whole merge fold throw
(JS exception propagation out of the `forEach`). -/
theorem mergeResults_aux_fails (parse : List Char → Option CharacterData) :
    ∀ (contents : List (Option (List Char))) (m : CharacterData),
      (∃ c ∈ contents, ∃ s, c = some s ∧ s ≠ [] ∧
        parse (stripFences s) = none) →
      contents.foldl
        (fun acc c =>
          match acc with
          | none => none
          | some m =>
            match c with
            | none => some m
            | some s =>
              if s = [] then some m
              else
                match parse (stripFences s) with
                | none => none
                | some p => some (mergeOne m p))
        (some m) = none := by
  intro contents
  induction contents with
  | nil => intro m h; simp at h
  | cons c t ih =>
    intro m h
    rcases h with ⟨c', hc', s, hcs, hsne, hps⟩
    rcases List.mem_cons.mp hc' with hhead | htail
    · subst hhead
      subst hcs
      simp only [List.foldl_cons, if_neg hsne, hps]
      exact mergeResults_aux_none parse t
    · cases c with
      | none => exact ih m ⟨c', htail, s, hcs, hsne, hps⟩
      | some s₀ =>
        by_cases hs₀ : s₀ = []
        · subst hs₀
          simpa using ih m ⟨c', htail, s, hcs, hsne, hps⟩
        · rcases hp₀ : parse (stripFences s₀) with _ | p₀
          · simp only [List.foldl_cons, if_neg hs₀, hp₀]
            exact mergeResults_aux_none parse t
          · simp only [List.foldl_cons, if_neg hs₀, hp₀]
            exact ih (mergeOne m p₀) ⟨c', htail, s, hcs, hsne, hps⟩

/-- Clean statements of the two previous facts for `mergeResults` itself. -/
theorem mergeResults_ok (parse : List Char → Option CharacterData)
    (contents : List (Option (List Char)))
    (hall : ∀ c ∈ contents, ∀ s, c = some s → s ≠ [] →
      (parse (stripFences s)).isSome) :
    mergeResults parse contents =
      some (mergeAll (contents.filterMap (usableParse parse))) :=
  mergeResults_aux_ok parse contents [] hall

/-- A single throwing parse fails the whole merge. -/
theorem mergeResults_fails (parse : List Char → Option CharacterData)
    (contents : List (Option (List Char)))
    (h : ∃ c ∈ contents, ∃ s, c = some s ∧ s ≠ [] ∧
      parse (stripFences s) = none) :
    mergeResults parse contents = none :=
  mergeResults_aux_fails parse contents [] h

/-- The two-chunk input segments into its two slices. -/
theorem twoChunkText_segments :
    segments twoChunkText = [List.replicate CHUNK_SIZE 'a', ['b']] := by
  unfold segments truncateInput twoChunkText
  rw [List.take_of_length_le
    (by rw [List.length_append, List.length_replicate]; decide)]
  rw [chunksOf_append _ _ (List.length_replicate _ _)]
  rw [show chunksOf ['b'] = [['b']] from by decide]

/-- The oracle's answers on the two segments. -/
theorem twoChunkOracle_eval :
    twoChunkOracle (List.replicate CHUNK_SIZE 'a') =
      ChunkOutcome.resolved (some badContent) ∧
    twoChunkOracle ['b'] = ChunkOutcome.resolved (some goodJson) := by
  constructor
  · unfold twoChunkOracle
    rw [if_neg (by rw [List.length_replicate]; decide)]
  · rfl

/-- C2 (counterexample) — the claim "a parse failure in one segment's model
response makes only that segment contribute nothing; the other segments'
results are still merged and `AnalyzeText` still returns a successful
InteractionGraph" is false on the code: on a two-chunk input whose first
chunk resolves with unparseable content and whose second chunk resolves
with valid JSON, `JSON.parse` throws inside the merge loop, the try/catch
answers the generic 500 error, and the good segment's result is discarded. -/
theorem per_segment_isolation_counterexample :
    (analyzeText false false twoChunkOracle twoChunkParse []
      twoChunkText).response = PostResult.serverError ∧
    ∀ g, (analyzeText false false twoChunkOracle twoChunkParse []
      twoChunkText).response ≠ PostResult.ok g := by
  have hne : twoChunkText ≠ [] := by
    intro h
    have := congrArg List.length h
    simp [twoChunkText] at this
  have hmiss : alGet ([] : Cache) (cacheKey twoChunkText) = none := rfl
  have houts : chunkOutcomes twoChunkOracle twoChunkText =
      [ChunkOutcome.resolved (some badContent),
        ChunkOutcome.resolved (some goodJson)] := by
    unfold chunkOutcomes
    rw [twoChunkText_segments, List.map_cons, List.map_cons, List.map_nil,
      twoChunkOracle_eval.1, twoChunkOracle_eval.2]
  have hcont : chunkContents twoChunkOracle twoChunkText =
      [some badContent, some goodJson] := by
    unfold chunkContents
    rw [houts]
    rfl
  have hnorej : (chunkOutcomes twoChunkOracle twoChunkText).any
      (fun o => decide (o = ChunkOutcome.rejected)) = false := by
    rw [houts]
    rfl
  have hmr : mergeResults twoChunkParse
      (chunkContents twoChunkOracle twoChunkText) = none := by
    rw [hcont]
    exact mergeResults_fails twoChunkParse _
      ⟨some badContent, List.mem_cons_self _ _, badContent, rfl,
        by decide, by decide⟩
  rw [analyzeText_miss false twoChunkOracle twoChunkParse [] twoChunkText
    hne hmiss hnorej, hmr]
  exact ⟨rfl, fun g => by simp⟩

/-- C2 (amended) — per-segment isolation holds only for the falsy-content
case: a segment whose call resolves without usable content contributes
nothing while every other decoded segment is still merged and the call
succeeds; but a segment whose content fails to parse makes the whole call
answer the generic 500 error (the code has no per-segment handling of
parse failures, and no schema validation at all). -/
theorem per_segment_isolation :
    (∀ (oracle : List Char → ChunkOutcome)
      (parse : List Char → Option CharacterData) (cache : Cache)
      (text : List Char), text ≠ [] →
      alGet cache (cacheKey text) = none →
      ((chunkOutcomes oracle text).any
        (fun o => decide (o = ChunkOutcome.rejected)) = false) →
      (∀ c ∈ chunkContents oracle text, ∀ s, c = some s → s ≠ [] →
        (parse (stripFences s)).isSome) →
      (analyzeText false false oracle parse cache text).response =
        PostResult.ok
          ⟨mergeAll ((chunkContents oracle text).filterMap
            (usableParse parse))⟩) ∧
    (∀ (oracle : List Char → ChunkOutcome)
      (parse : List Char → Option CharacterData) (cache : Cache)
      (text : List Char), text ≠ [] →
      alGet cache (cacheKey text) = none →
      ((chunkOutcomes oracle text).any
        (fun o => decide (o = ChunkOutcome.rejected)) = false) →
      (∃ c ∈ chunkContents oracle text, ∃ s, c = some s ∧ s ≠ [] ∧
        parse (stripFences s) = none) →
      (analyzeText false false oracle parse cache text).response =
        PostResult.serverError) := by
  constructor
  · intro oracle parse cache text hne hmiss hnorej hall
    rw [analyzeText_miss false oracle parse cache text hne hmiss hnorej,
      mergeResults_ok parse _ hall]
    rfl
  · intro oracle parse cache text hne hmiss hnorej hex
    rw [analyzeText_miss false oracle parse cache text hne hmiss hnorej,
      mergeResults_fails parse _ hex]

/-- Witness for C2's amended theorem at concrete one-chunk inputs. -/
theorem per_segment_isolation_witness :
    (analyzeText false false (fun _ => ChunkOutcome.resolved (some goodJson))
      twoChunkParse [] ['a']).response =
      PostResult.ok
        ⟨mergeAll ((chunkContents
          (fun _ => ChunkOutcome.resolved (some goodJson)) ['a']).filterMap
            (usableParse twoChunkParse))⟩ ∧
    (analyzeText false false (fun _ => ChunkOutcome.resolved (some badContent))
      twoChunkParse [] ['a']).response = PostResult.serverError := by
  constructor
  · refine per_segment_isolation.1
      (fun _ => ChunkOutcome.resolved (some goodJson)) twoChunkParse []
      ['a'] (by decide) rfl (by decide) ?_
    intro c hc s hcs hsne
    rw [show chunkContents (fun _ => ChunkOutcome.resolved (some goodJson))
        ['a'] = [some goodJson] from by decide] at hc
    have hceq : c = some goodJson := by simpa using hc
    subst hceq
    injection hcs with hs
    subst hs
    decide
  · refine per_segment_isolation.2
      (fun _ => ChunkOutcome.resolved (some badContent)) twoChunkParse []
      ['a'] (by decide) rfl (by decide) ?_
    refine ⟨some badContent, ?_, badContent, rfl, by decide, by decide⟩
    rw [show chunkContents (fun _ => ChunkOutcome.resolved (some badContent))
        ['a'] = [some badContent] from by decide]
    exact List.mem_cons_self _ _

/-- C3 (counterexample) — the claim "a failure of the cache layer is never
surfaced by `AnalyzeText`" is false on the code: with the same one-chunk
input and a working extraction that would produce the graph
Alice→Bob:1, a throwing cache read answers the generic 500 error instead of
behaving like a miss, and a throwing cache write after aggregation also
answers 500 instead of returning the computed graph (both throws land in
the single try/catch of route.ts lines 154-160). -/
theorem cache_failure_recovered_counterexample :
    (analyzeText true false (fun _ => ChunkOutcome.resolved (some goodJson))
      twoChunkParse [] ['a']).response = PostResult.serverError ∧
    (analyzeText false true (fun _ => ChunkOutcome.resolved (some goodJson))
      twoChunkParse [] ['a']).response = PostResult.serverError ∧
    (analyzeText false false (fun _ => ChunkOutcome.resolved (some goodJson))
      twoChunkParse [] ['a']).response =
      PostResult.ok ⟨[("Alice", [("Bob", (1 : Int))])]⟩ := by
  refine ⟨by decide, by decide, by decide⟩

/-- C3 (amended) — a cache failure is always surfaced: if the cache read
throws, the handler answers the generic 500 error without doing any
pipeline work, and if the cache write throws after a successful merge, the
handler answers 500 and discards the computed graph. -/
theorem cache_failure_surfaced :
    (∀ (sf : Bool) (oracle : List Char → ChunkOutcome)
      (parse : List Char → Option CharacterData) (cache : Cache)
      (text : List Char), text ≠ [] →
      analyzeText true sf oracle parse cache text =
        ⟨PostResult.serverError, cache, 0, false⟩) ∧
    (∀ (oracle : List Char → ChunkOutcome)
      (parse : List Char → Option CharacterData) (cache : Cache)
      (text : List Char) (merged : CharacterData), text ≠ [] →
      alGet cache (cacheKey text) = none →
      ((chunkOutcomes oracle text).any
        (fun o => decide (o = ChunkOutcome.rejected)) = false) →
      mergeResults parse (chunkContents oracle text) = some merged →
      analyzeText false true oracle parse cache text =
        ⟨PostResult.serverError, cache, (segments text).length, true⟩) := by
  constructor
  · intro sf oracle parse cache text hne
    exact analyzeText_getFail sf oracle parse cache text hne
  · intro oracle parse cache text merged hne hmiss hnorej hmr
    rw [analyzeText_miss true oracle parse cache text hne hmiss hnorej, hmr]
    rfl

/-- Witness for C3's amended theorem at concrete inputs. -/
theorem cache_failure_surfaced_witness :
    analyzeText true false (fun _ => ChunkOutcome.resolved (some goodJson))
      twoChunkParse [] ['a'] = ⟨PostResult.serverError, [], 0, false⟩ ∧
    analyzeText false true (fun _ => ChunkOutcome.resolved (some goodJson))
      twoChunkParse [] ['a'] =
      ⟨PostResult.serverError, [], (segments ['a']).length, true⟩ :=
  ⟨cache_failure_surfaced.1 false
      (fun _ => ChunkOutcome.resolved (some goodJson)) twoChunkParse []
      ['a'] (by decide),
    cache_failure_surfaced.2
      (fun _ => ChunkOutcome.resolved (some goodJson)) twoChunkParse []
      ['a'] [("Alice", [("Bob", (1 : Int))])] (by decide) rfl (by decide)
      (by decide)⟩

/-- C4 — Cache idempotence: when a call on `text` answers a graph `g`
(either from the cache or by running the pipeline and writing its result
under the deterministic content-derived key), a second call on the same
text against the resulting cache state finds the entry under the same key,
answers the same `g`, launches no chat-completion call, and runs none of
the segmentation/extraction/aggregation pipeline (TTL modelled as entry
persistence within the window). -/
theorem cache_idempotence (oracle : List Char → ChunkOutcome)
    (parse : List Char → Option CharacterData) (cache : Cache)
    (text : List Char) (g : AnalysisResult)
    (h : (analyzeText false false oracle parse cache text).response =
      PostResult.ok g) :
    analyzeText false false oracle parse
      (analyzeText false false oracle parse cache text).cache text =
      ⟨PostResult.ok g,
        (analyzeText false false oracle parse cache text).cache, 0, false⟩ := by
  by_cases hne : text = []
  · subst hne
    simp [analyzeText] at h
  · cases hget : alGet cache (cacheKey text) with
    | some r =>
      have h1 := analyzeText_hit false oracle parse cache text r hne hget
      rw [h1] at h ⊢
      have hg : r = g := PostResult.ok.inj h
      subst hg
      exact analyzeText_hit false oracle parse cache text r hne hget
    | none =>
      cases hrej : (chunkOutcomes oracle text).any
          (fun o => decide (o = ChunkOutcome.rejected)) with
      | true =>
        have h1 := analyzeText_rejected false oracle parse cache text
          hne hget hrej
        rw [h1] at h
        exact PostResult.noConfusion h
      | false =>
        have hspine := analyzeText_miss false oracle parse cache text
          hne hget hrej
        cases hmr : mergeResults parse (chunkContents oracle text) with
        | none =>
          rw [hspine, hmr] at h
          exact PostResult.noConfusion h
        | some merged =>
          rw [hspine, hmr] at h ⊢
          have hg : (⟨merged⟩ : AnalysisResult) = g := PostResult.ok.inj h
          subst hg
          exact analyzeText_hit false oracle parse
            (alSet cache (cacheKey text) ⟨merged⟩) text ⟨merged⟩ hne
            (alGet_alSet_self cache (cacheKey text) ⟨merged⟩)

/-- Witness for C4 at a concrete input: the second call is served from the
cache produced by the first. -/
theorem cache_idempotence_witness :
    analyzeText false false (fun _ => ChunkOutcome.resolved (some goodJson))
      twoChunkParse
      (analyzeText false false
        (fun _ => ChunkOutcome.resolved (some goodJson)) twoChunkParse []
        ['a']).cache ['a'] =
      ⟨PostResult.ok ⟨[("Alice", [("Bob", (1 : Int))])]⟩,
        (analyzeText false false
          (fun _ => ChunkOutcome.resolved (some goodJson)) twoChunkParse []
          ['a']).cache, 0, false⟩ :=
  cache_idempotence (fun _ => ChunkOutcome.resolved (some goodJson))
    twoChunkParse [] ['a'] ⟨[("Alice", [("Bob", (1 : Int))])]⟩ (by decide)

/-- C5 (counterexample) — the claim "on a cache miss, `AnalyzeText`
truncates the input to at most 50,000 characters before segmentation;
characters beyond that limit never reach the extraction client" is false on
the code: on an input of 60,000 characters the segments handed to the
chat-completion calls jointly contain all 60,000 characters
(`bookText.slice(0, 100000)` on route.ts line 55 keeps them all). -/
theorem truncation_limit_counterexample :
    ((segments (List.replicate 60000 'a')).flatten).length = 60000 ∧
    ¬(60000 ≤ 50000) := by
  constructor
  · have htr : truncateInput (List.replicate 60000 'a') =
        List.replicate 60000 'a' := by
      unfold truncateInput
      exact List.take_of_length_le (by rw [List.length_replicate]; decide)
    unfold segments
    rw [htr, chunksOf_join, List.length_replicate]
  · decide

/-- C5 (amended) — on a cache miss the handler truncates the input to at
most `MAX_INPUT` = 100,000 characters before segmentation: the segments
jointly carry exactly the first `min(length, 100000)` characters, so no
character beyond position 100,000 reaches the extraction client. -/
theorem truncation_limit (text : List Char) :
    (segments text).flatten = text.take MAX_INPUT ∧
    ((segments text).flatten).length ≤ MAX_INPUT ∧
    MAX_INPUT = 100000 := by
  have h1 : (segments text).flatten = text.take MAX_INPUT := by
    unfold segments truncateInput
    exact chunksOf_join _
  exact ⟨h1, by rw [h1]; exact List.length_take_le _ _, rfl⟩

/-- The inner merge step preserves positivity of all counts. -/
theorem mergeRelations_pos (rel : CharacterRelations) :
    ∀ (cur : CharacterRelations), (∀ q ∈ cur, 0 < q.2) →
      (∀ q ∈ rel, 0 < q.2) → ∀ q ∈ mergeRelations cur rel, 0 < q.2 := by
  induction rel with
  | nil => intro cur hcur _ q hq; exact hcur q hq
  | cons q₀ t ih =>
    intro cur hcur hrel q hq
    have hstep : mergeRelations cur (q₀ :: t) =
        mergeRelations (alSet cur q₀.1 (((alGet cur q₀.1).getD 0) + q₀.2)) t :=
      rfl
    rw [hstep] at hq
    refine ih _ ?_ (fun x hx => hrel x (List.mem_cons_of_mem _ hx)) q hq
    intro x hx
    rcases mem_alSet _ _ _ _ hx with hx1 | hx2
    · subst hx1
      have hq₀ : 0 < q₀.2 := hrel q₀ (List.mem_cons_self _ _)
      rcases hg : alGet cur q₀.1 with _ | v
      · simpa [hg] using hq₀
      · have hv : 0 < v := hcur (q₀.1, v) (alGet_mem _ _ _ hg)
        simp only [hg, Option.getD_some]
        omega
    · exact hcur x hx2

/-- One full segment merge preserves positivity of all counts. -/
theorem mergeOne_pos (p : CharacterData) :
    ∀ (m : CharacterData), posGraph m → posGraph p →
      posGraph (mergeOne m p) := by
  induction p with
  | nil => intro m hm _; exact hm
  | cons r t ih =>
    intro m hm hp
    have hstep : mergeOne m (r :: t) =
        mergeOne (alSet m r.1 (mergeRelations ((alGet m r.1).getD []) r.2)) t :=
      rfl
    rw [hstep]
    refine ih _ ?_ (fun x hx => hp x (List.mem_cons_of_mem _ hx))
    intro x hx
    rcases mem_alSet _ _ _ _ hx with hx1 | hx2
    · subst hx1
      intro q hq
      refine mergeRelations_pos r.2 _ ?_ ?_ q hq
      · intro y hy
        rcases hg : alGet m r.1 with _ | rel₀
        · simp [hg] at hy
        · rw [hg] at hy
          exact hm (r.1, rel₀) (alGet_mem _ _ _ hg) y hy
      · exact hp r (List.mem_cons_self _ _)
    · exact hm x hx2

/-- The Aggregator preserves positivity of all counts. -/
theorem mergeAll_pos_aux (ps : List CharacterData) :
    ∀ (m : CharacterData), posGraph m → (∀ p ∈ ps, posGraph p) →
      posGraph (ps.foldl mergeOne m) := by
  induction ps with
  | nil => intro m hm _; exact hm
  | cons p t ih =>
    intro m hm hall
    rw [List.foldl_cons]
    exact ih _ (mergeOne_pos p m hm (hall p (List.mem_cons_self _ _)))
      (fun x hx => hall x (List.mem_cons_of_mem _ hx))

/-- When every successful parse decodes to an all-positive object, a
successful merge fold produces an all-positive object. -/
theorem mergeResults_pos (parse : List Char → Option CharacterData)
    (hp : ∀ s p, parse s = some p → posGraph p) :
    ∀ (contents : List (Option (List Char))) (m₀ m : CharacterData),
      posGraph m₀ →
      contents.foldl
        (fun acc c =>
          match acc with
          | none => none
          | some m =>
            match c with
            | none => some m
            | some s =>
              if s = [] then some m
              else
                match parse (stripFences s) with
                | none => none
                | some p => some (mergeOne m p))
        (some m₀) = some m →
      posGraph m := by
  intro contents
  induction contents with
  | nil =>
    intro m₀ m hm₀ h
    cases h
    exact hm₀
  | cons c t ih =>
    intro m₀ m hm₀ h
    cases c with
    | none => exact ih m₀ m hm₀ h
    | some s =>
      by_cases hs : s = []
      · subst hs
        exact ih m₀ m hm₀ (by simpa using h)
      · rcases hps : parse (stripFences s) with _ | p
        · rw [List.foldl_cons] at h
          simp only [if_neg hs, hps] at h
          rw [mergeResults_aux_none parse t] at h
          cases h
        · rw [List.foldl_cons] at h
          simp only [if_neg hs, hps] at h
          exact ih (mergeOne m₀ p) m
            (mergeOne_pos p m₀ hm₀ (hp (stripFences s) p hps)) h

/-- C6 (amended) — every count in a successful answer of the handler is
strictly positive *provided* every cached graph and every decoded response
has only strictly positive counts; the code itself enforces nothing — there
is no schema validation after `JSON.parse` (the JSON-Schema of route.ts
lines 66-89 is only sent to the model as prompt text), so a segment whose
decoded response carries a non-positive count is merged as-is, not rejected
(see the counterexample). -/
theorem counts_positive (gf sf : Bool) (oracle : List Char → ChunkOutcome)
    (parse : List Char → Option CharacterData) (cache : Cache)
    (text : List Char) (g : AnalysisResult)
    (hcache : ∀ e ∈ cache, posGraph e.2.interactions)
    (hparse : ∀ s p, parse s = some p → posGraph p)
    (h : (analyzeText gf sf oracle parse cache text).response =
      PostResult.ok g) :
    posGraph g.interactions := by
  by_cases hne : text = []
  · subst hne
    simp [analyzeText] at h
  · cases gf with
    | true =>
      rw [analyzeText_getFail sf oracle parse cache text hne] at h
      exact PostResult.noConfusion h
    | false =>
      cases hget : alGet cache (cacheKey text) with
      | some r =>
        rw [analyzeText_hit sf oracle parse cache text r hne hget] at h
        have hg : r = g := PostResult.ok.inj h
        subst hg
        exact hcache (cacheKey text, r) (alGet_mem _ _ _ hget)
      | none =>
        cases hrej : (chunkOutcomes oracle text).any
            (fun o => decide (o = ChunkOutcome.rejected)) with
        | true =>
          rw [analyzeText_rejected sf oracle parse cache text
            hne hget hrej] at h
          exact PostResult.noConfusion h
        | false =>
          have hspine := analyzeText_miss sf oracle parse cache text
            hne hget hrej
          cases hmr : mergeResults parse (chunkContents oracle text) with
          | none =>
            rw [hspine, hmr] at h
            exact PostResult.noConfusion h
          | some merged =>
            rw [hspine, hmr] at h
            cases sf with
            | true => exact PostResult.noConfusion h
            | false =>
              have hg : (⟨merged⟩ : AnalysisResult) = g := PostResult.ok.inj h
              subst hg
              exact mergeResults_pos parse hparse
                (chunkContents oracle text) [] merged (by intro r hr; cases hr)
                hmr

/-- C6 (counterexample) — the claim "a segment whose decoded response
contains a non-positive interactions value is rejected whole as
InvalidResponse and contributes nothing" is false on the code: a segment
decoding to Bob→Alice:0 is accepted and merged, and the successful answer
contains the non-positive count 0. -/
theorem counts_positive_counterexample :
    (analyzeText false false (fun _ => ChunkOutcome.resolved (some zeroJson))
      zeroParse [] ['a']).response =
      PostResult.ok ⟨[("Bob", [("Alice", (0 : Int))])]⟩ ∧
    alGet2 [("Bob", [("Alice", (0 : Int))])] "Bob" "Alice" = some 0 ∧
    ¬(0 < (0 : Int)) := by
  refine ⟨by decide, by decide, by decide⟩

/-- Witness for C6's amended theorem at a concrete input. -/
theorem counts_positive_witness :
    posGraph ([("Alice", [("Bob", (1 : Int))])] : CharacterData) := by
  have h : (analyzeText false false
      (fun _ => ChunkOutcome.resolved (some goodJson)) twoChunkParse []
      ['a']).response = PostResult.ok ⟨[("Alice", [("Bob", (1 : Int))])]⟩ := by
    decide
  refine counts_positive false false
    (fun _ => ChunkOutcome.resolved (some goodJson)) twoChunkParse []
    ['a'] ⟨[("Alice", [("Bob", (1 : Int))])]⟩ ?_ ?_ h
  · intro e he
    cases he
  · intro s p hp
    by_cases hs : s = goodJson
    · subst hs
      have hpe : [("Alice", [("Bob", (1 : Int))])] = p := by
        simpa [twoChunkParse] using hp
      subst hpe
      decide
    · exact absurd hp (by simp [twoChunkParse, hs])

/-- Keys of a keyed fold of assignments: exactly the keys of the folded
list plus those of the initial accumulator. -/
theorem hasKey_foldl_alSet {κ α β : Type} [DecidableEq κ]
    (f : κ × α → β) (l : List (κ × α)) :
    ∀ (init : List (κ × β)) (a : κ),
      hasKey (l.foldl (fun acc r => alSet acc r.1 (f r)) init) a =
        (l.any (fun r => decide (r.1 = a)) || hasKey init a) := by
  induction l with
  | nil => intro init a; simp
  | cons r t ih =>
    intro init a
    rw [List.foldl_cons, ih, hasKey_alSet]
    cases h1 : decide (r.1 = a) <;> cases h2 : t.any (fun x => decide (x.1 = a)) <;>
      cases h3 : hasKey init a <;> simp [h1, h2, h3]

/-- `nodeMap` has exactly the outer keys of the interaction data. -/
theorem hasKey_nodeTotals (data : CharacterData) (a : String) :
    hasKey (nodeTotals data) a = hasKey data a := by
  unfold nodeTotals
  rw [hasKey_foldl_alSet]
  simp [hasKey]

/-- A guarded `filterMap` whose guard always holds is a plain `map`. -/
theorem filterMap_if_eq_map {α β : Type} (P : α → Bool) (g : α → β) :
    ∀ (l : List α), (∀ x ∈ l, P x = true) →
      l.filterMap (fun x => if P x then some (g x) else none) = l.map g := by
  intro l
  induction l with
  | nil => intro _; rfl
  | cons x t ih =>
    intro h
    rw [List.filterMap_cons, List.map_cons]
    rw [if_pos (h x (List.mem_cons_self _ _))]
    rw [ih (fun y hy => h y (List.mem_cons_of_mem _ hy))]

/-- C10 (counterexample) — the claim that the inline transform of page.tsx
and the exported transform of utils.ts "return the same GraphData" and
"both emit a link for a pair A→B only when both A and B appear as nodes" is
false on the code: on Alice→Bob:3 (Bob is not an outer key, hence not a
node) page.tsx emits the link Alice→Bob anyway while utils.ts drops it. -/
theorem transform_equivalence_counterexample :
    transformCharacterDataPage [("Alice", [("Bob", (3 : Int))])] ≠
      transformCharacterDataUtils [("Alice", [("Bob", (3 : Int))])] ∧
    (transformCharacterDataPage [("Alice", [("Bob", (3 : Int))])]).links =
      [⟨"Alice", "Bob", 3⟩] ∧
    (transformCharacterDataUtils [("Alice", [("Bob", (3 : Int))])]).links =
      [] := by
  refine ⟨by decide, by decide, by decide⟩

/-- C10 (amended) — the two transforms always produce the same node list;
the utils.ts transform emits a link only when both endpoints appear as
nodes, whereas the page.tsx transform emits a link for every entry; the
two transforms agree exactly on data whose every inner (target) key also
appears as an outer key. -/
theorem transform_equivalence :
    (∀ data : CharacterData, (transformCharacterDataPage data).nodes =
      (transformCharacterDataUtils data).nodes) ∧
    (∀ data : CharacterData,
      (∀ r ∈ data, ∀ q ∈ r.2, hasKey data q.1 = true) →
      transformCharacterDataPage data = transformCharacterDataUtils data) ∧
    (∀ data : CharacterData, ∀ l ∈ (transformCharacterDataUtils data).links,
      hasKey data l.source = true ∧ hasKey data l.target = true) := by
  refine ⟨fun _ => rfl, ?_, ?_⟩
  · intro data hall
    unfold transformCharacterDataPage transformCharacterDataUtils
    congr 1
    unfold pageLinks utilsLinks
    congr 1
    refine List.map_congr_left ?_
    intro r hr
    refine (filterMap_if_eq_map _ _ r.2 ?_).symm
    intro q hq
    have hsrc : hasKey data r.1 = true := by
      rw [hasKey, List.any_eq_true]
      exact ⟨r, hr, by simp⟩
    rw [hasKey_nodeTotals, hasKey_nodeTotals, hsrc, hall r hr q hq]
    rfl
  · intro data l hl
    unfold transformCharacterDataUtils utilsLinks at hl
    simp only [List.mem_flatten, List.mem_map] at hl
    rcases hl with ⟨inner, ⟨r, hr, hinner⟩, hlin⟩
    subst hinner
    rw [List.mem_filterMap] at hlin
    rcases hlin with ⟨q, hq, hfq⟩
    rcases hcond : (hasKey (nodeTotals data) r.1 &&
        hasKey (nodeTotals data) q.1) with _ | _
    · rw [hcond] at hfq
      simp at hfq
    · rw [hcond] at hfq
      simp only [if_true] at hfq
      have hlq : l = (⟨r.1, q.1, q.2⟩ : GraphLink) := by
        simpa using hfq.symm
      subst hlq
      have hcond' := hcond
      rw [Bool.and_eq_true] at hcond'
      rw [← hasKey_nodeTotals data r.1, ← hasKey_nodeTotals data q.1]
      exact ⟨hcond'.1, hcond'.2⟩

/-- Witness for C10's amended theorem on data whose targets are all outer
keys: the two transforms agree. -/
theorem transform_equivalence_witness :
    transformCharacterDataPage
        [("Alice", [("Bob", (2 : Int))]), ("Bob", [("Alice", (1 : Int))])] =
      transformCharacterDataUtils
        [("Alice", [("Bob", (2 : Int))]), ("Bob", [("Alice", (1 : Int))])] :=
  transform_equivalence.2.1
    [("Alice", [("Bob", (2 : Int))]), ("Bob", [("Alice", (1 : Int))])]
    (by decide)

end CharacterNetwork
